import Mathlib

/-!
Verification of the Loquiz results data-acquisition layer
(src/services/loquizService.ts and the LoquizResults component).
JSON values are modelled as an inductive `JVal`; JavaScript dynamic
semantics (truthiness, `||`, `??`, property access throwing on null)
are modelled explicitly.  Property access on `null`/`undefined` throws
a TypeError in JavaScript; this is modelled with `Except Unit`.
`undefined` and `null` are identified as `JVal.null` (both are falsy,
neither is an array, and both make property access throw).
-/

/-- Model of a JSON / JavaScript value. -/
inductive JVal where
  | null : JVal
  | bool : Bool → JVal
  | num : Int → JVal
  | str : String → JVal
  | arr : List JVal → JVal
  | obj : List (String × JVal) → JVal

/-- Structural induction principle for `JVal` (the nested `List` occurrences
prevent the built-in recursor from being convenient). -/
theorem JVal.inductOn (motive : JVal → Prop)
    (hnull : motive .null)
    (hbool : ∀ b, motive (.bool b))
    (hnum : ∀ n, motive (.num n))
    (hstr : ∀ s, motive (.str s))
    (harr : ∀ xs, (∀ x ∈ xs, motive x) → motive (.arr xs))
    (hobj : ∀ fs, (∀ kv ∈ fs, motive (Prod.snd kv)) → motive (.obj fs)) :
    ∀ v, motive v
  | .null => hnull
  | .bool b => hbool b
  | .num n => hnum n
  | .str s => hstr s
  | .arr xs => harr xs (fun x hx =>
      JVal.inductOn motive hnull hbool hnum hstr harr hobj x)
  | .obj fs => hobj fs (fun kv hkv =>
      JVal.inductOn motive hnull hbool hnum hstr harr hobj kv.2)
termination_by v => sizeOf v
decreasing_by
  · have := List.sizeOf_lt_of_mem hx
    simp only [JVal.arr.sizeOf_spec]
    omega
  · have h1 := List.sizeOf_lt_of_mem hkv
    have h2 : sizeOf kv.2 < sizeOf kv := by
      rcases kv with ⟨k, v⟩
      simp only [Prod.mk.sizeOf_spec]
      omega
    simp only [JVal.obj.sizeOf_spec]
    omega

mutual

/-- Structural equality on `JVal`; this is what a JavaScript `Set` of
primitive (string) keys implements via SameValueZero. -/
def jvalBEq : JVal → JVal → Bool
  | .null, .null => true
  | .bool a, .bool b => a == b
  | .num a, .num b => a == b
  | .str a, .str b => a == b
  | .arr a, .arr b => jvalListBEq a b
  | .obj a, .obj b => jvalFieldsBEq a b
  | _, _ => false

/-- Pointwise `jvalBEq` on lists. -/
def jvalListBEq : List JVal → List JVal → Bool
  | [], [] => true
  | x :: xs, y :: ys => jvalBEq x y && jvalListBEq xs ys
  | _, _ => false

/-- Pointwise `jvalBEq` on field lists. -/
def jvalFieldsBEq : List (String × JVal) → List (String × JVal) → Bool
  | [], [] => true
  | (k1, v1) :: xs, (k2, v2) :: ys => k1 == k2 && jvalBEq v1 v2 && jvalFieldsBEq xs ys
  | _, _ => false

end

/-- Pointwise equivalence for list equality, parametric in the element test. -/
theorem jvalListBEq_iff (xs : List JVal)
    (ih : ∀ x ∈ xs, ∀ b, jvalBEq x b = true ↔ x = b) :
    ∀ ys, jvalListBEq xs ys = true ↔ xs = ys := by
  induction xs with
  | nil => intro ys; cases ys <;> simp [jvalListBEq]
  | cons x xs ihx =>
    intro ys
    cases ys with
    | nil => simp [jvalListBEq]
    | cons y ys =>
      have hx := ih x (by simp)
      have hrest := ihx (fun z hz b => ih z (by simp [hz]) b) ys
      simp [jvalListBEq, Bool.and_eq_true, hx, hrest]

/-- Pointwise equivalence for field-list equality. -/
theorem jvalFieldsBEq_iff (fs : List (String × JVal))
    (ih : ∀ kv ∈ fs, ∀ b, jvalBEq (Prod.snd kv) b = true ↔ Prod.snd kv = b) :
    ∀ gs, jvalFieldsBEq fs gs = true ↔ fs = gs := by
  induction fs with
  | nil => intro gs; cases gs <;> simp [jvalFieldsBEq]
  | cons kv fs ihf =>
    intro gs
    cases gs with
    | nil => rcases kv with ⟨k, v⟩; simp [jvalFieldsBEq]
    | cons kv2 gs =>
      rcases kv with ⟨k, v⟩
      rcases kv2 with ⟨k2, v2⟩
      have hv := ih (k, v) (by simp) v2
      have hrest := ihf (fun z hz b => ih z (by simp [hz]) b) gs
      simp only [jvalFieldsBEq, Bool.and_eq_true, beq_iff_eq, hv, hrest,
        Prod.mk.injEq, List.cons.injEq]

/-- The boolean equality decides propositional equality. -/
theorem jvalBEq_iff : ∀ a b : JVal, jvalBEq a b = true ↔ a = b := by
  intro a
  induction a using JVal.inductOn with
  | hnull => intro b; cases b <;> simp [jvalBEq]
  | hbool a => intro b; cases b <;> simp [jvalBEq]
  | hnum a => intro b; cases b <;> simp [jvalBEq]
  | hstr a => intro b; cases b <;> simp [jvalBEq]
  | harr xs ih =>
    intro b
    cases b with
    | arr ys =>
      have h : jvalBEq (.arr xs) (.arr ys) = jvalListBEq xs ys := rfl
      rw [h, jvalListBEq_iff xs ih ys]
      simp
    | null => simp [jvalBEq]
    | bool b => simp [jvalBEq]
    | num n => simp [jvalBEq]
    | str s => simp [jvalBEq]
    | obj fs => simp [jvalBEq]
  | hobj fs ih =>
    intro b
    cases b with
    | obj gs =>
      have h : jvalBEq (.obj fs) (.obj gs) = jvalFieldsBEq fs gs := rfl
      rw [h, jvalFieldsBEq_iff fs ih gs]
      simp
    | null => simp [jvalBEq]
    | bool b => simp [jvalBEq]
    | num n => simp [jvalBEq]
    | str s => simp [jvalBEq]
    | arr ys => simp [jvalBEq]

instance : DecidableEq JVal := fun a b => decidable_of_iff _ (jvalBEq_iff a b)

/-- JavaScript truthiness.  Note that an empty array and every object are truthy. -/
def truthy : JVal → Bool
  | .null => false
  | .bool b => b
  | .num n => n != 0
  | .str s => s != ""
  | .arr _ => true
  | .obj _ => true

/-- JavaScript `a || b`. -/
def jsOr (a b : JVal) : JVal := if truthy a then a else b

/-- JavaScript `a && b`. -/
def jsAnd (a b : JVal) : JVal := if truthy a then b else a

/-- JavaScript `a ?? b` (nullish coalescing; `undefined` is identified with `null`). -/
def jsNullish (a b : JVal) : JVal := if a = .null then b else a

/-- Field lookup on an object's field list; an absent field reads as `undefined`,
identified with `JVal.null`.  Field lists are treated as maps (first binding wins). -/
def objGet (fs : List (String × JVal)) (k : String) : JVal :=
  match fs.lookup k with
  | some v => v
  | none => .null

/-- Property access `o.k` on a value known not to be nullish, and also the
optional-chaining access `o?.k`: on `null` it yields `undefined` (here `.null`),
on a primitive it yields `undefined`, on an object it looks the field up. -/
def optGet (o : JVal) (k : String) : JVal :=
  match o with
  | .obj fs => objGet fs k
  | _ => .null

/-- Plain property access `o.k`: throws a TypeError when `o` is nullish. -/
def jsGet (o : JVal) (k : String) : Except Unit JVal :=
  match o with
  | .null => .error ()
  | .obj fs => .ok (objGet fs k)
  | _ => .ok .null

/-- Whitespace for the JavaScript `trim` (ASCII subset; the credentials and
titles involved are ASCII). -/
def isWs (c : Char) : Bool := c = ' ' || c = '\t' || c = '\n' || c = '\r'

/-- JavaScript `String.prototype.trim`, charwise so the kernel can evaluate it. -/
def jsTrim (s : String) : String :=
  String.mk (((s.data.dropWhile isWs).reverse.dropWhile isWs).reverse)

/-- JavaScript `String.prototype.toLowerCase` (ASCII case folding). -/
def jsToLower (s : String) : String := String.mk (s.data.map Char.toLower)

/-- JavaScript `String.prototype.startsWith`. -/
def jsStartsWith (s pre : String) : Bool := pre.data.isPrefixOf s.data

/-- JavaScript `String.prototype.substring(n)`. -/
def jsSubstringFrom (s : String) (n : Nat) : String := String.mk (s.data.drop n)

/-- Scanner for the tag-stripping regex `<[^>]*>`: finds the first unconsumed
closing angle bracket and returns the remainder after it. -/
def findClose : List Char → Option (List Char)
  | [] => none
  | c :: cs => if c = '>' then some cs else findClose cs

theorem findClose_length : ∀ cs rest, findClose cs = some rest → rest.length < cs.length := by
  intro cs
  induction cs with
  | nil => intro rest h; simp [findClose] at h
  | cons c cs ih =>
    intro rest h
    by_cases hc : c = '>'
    · simp [findClose, hc] at h
      simp [← h]
    · simp [findClose, hc] at h
      exact Nat.lt_succ_of_lt (ih rest h)

/-- Removal of every match of the regex `<[^>]*>` (a `<`, any run of
non-`>` characters, then `>`), working left to right as
`String.replace` with a global regex does.  A trailing `<` with no
closing `>` matches nothing and is kept verbatim. -/
def stripTagsAux : List Char → List Char
  | [] => []
  | c :: cs =>
    if c = '<' then
      match h : findClose cs with
      | some rest => stripTagsAux rest
      | none => c :: cs
    else c :: stripTagsAux cs
termination_by l => l.length
decreasing_by
  · exact Nat.lt_succ_of_lt (findClose_length cs rest h)
  · simp

/-- Model of `val.replace(/<[^>]*>/g, '')` from `getTaskTitle`'s `extract`. -/
def stripHtml (s : String) : String := String.mk (stripTagsAux s.data)

mutual

/-- Size measure on JSON values, used to bound the recursion depth of `extract`. -/
def jsize : JVal → Nat
  | .null => 1
  | .bool _ => 1
  | .num _ => 1
  | .str _ => 1
  | .arr xs => 1 + jsizeList xs
  | .obj fs => 1 + jsizeFields fs

/-- Size of a list of JSON values. -/
def jsizeList : List JVal → Nat
  | [] => 0
  | x :: xs => 1 + jsize x + jsizeList xs

/-- Size of a field list. -/
def jsizeFields : List (String × JVal) → Nat
  | [] => 0
  | kv :: fs => 1 + jsize kv.2 + jsizeFields fs

end

theorem jsize_pos : ∀ v, 1 ≤ jsize v := by
  intro v
  cases v <;> simp [jsize]

theorem jsize_lookup_lt : ∀ (fs : List (String × JVal)) k v,
    fs.lookup k = some v → jsize v < 1 + jsizeFields fs := by
  intro fs
  induction fs with
  | nil => intro k v h; simp [List.lookup] at h
  | cons kv fs ih =>
    intro k v h
    rw [List.lookup] at h
    by_cases hk : k == kv.1
    · simp only [hk] at h
      cases h
      simp [jsizeFields]
      omega
    · simp only [Bool.not_eq_true] at hk
      simp only [hk] at h
      have := ih k v h
      simp [jsizeFields]
      omega

theorem jsize_objGet_lt (fs : List (String × JVal)) (k : String)
    (h : truthy (objGet fs k) = true) : jsize (objGet fs k) < jsize (.obj fs) := by
  cases hl : fs.lookup k with
  | none =>
    have he : objGet fs k = .null := by simp [objGet, hl]
    rw [he] at h
    simp [truthy] at h
  | some v =>
    have he : objGet fs k = v := by simp [objGet, hl]
    rw [he]
    have := jsize_lookup_lt fs k v hl
    simp [jsize]
    omega

theorem jsize_mem_lt : ∀ (xs : List JVal) x, x ∈ xs → jsize x < jsize (.arr xs) := by
  intro xs
  induction xs with
  | nil => intro x h; simp at h
  | cons y ys ih =>
    intro x h
    rcases List.mem_cons.mp h with h | h
    · subst h; simp [jsize, jsizeList]; omega
    · have := ih x h
      simp [jsize, jsizeList] at *
      omega

/-- JavaScript `Array.prototype.join(' ')`. -/
def joinSpace : List String → String
  | [] => ""
  | [s] => s
  | s :: rest => s ++ " " ++ joinSpace rest

/-- The `filter(Boolean)` step of `extract`'s content-array case: drop `null`
results and empty strings (both falsy). -/
def keepStrings (l : List (Option String)) : List String :=
  l.filterMap (fun o =>
    match o with
    | some s => if s = "" then none else some s
    | none => none)

/-- Fuel-indexed embedding of `extract` from `getTaskTitle`
(src/services/loquizService.ts lines 49-58).  The JavaScript function
recurses without any depth bound; the fuel makes the recursion
well-founded in the embedding, and `extractFuel_suff` below shows fuel
equal to the size of the input always suffices, so `extract` (which runs
with that much fuel) is the function's denotation on every finite input.
A result of `none` means the fuel ran out; `some none` is JavaScript `null`. -/
def extractFuel : Nat → JVal → Option (Option String)
  | 0, _ => none
  | Nat.succ n, val =>
    if truthy val = false then some none
    else
      match val with
      | .str s => some (some (jsTrim (stripHtml s)))
      | .obj fs =>
        if truthy (objGet fs "text") then extractFuel n (objGet fs "text")
        else
          match objGet fs "content" with
          | .arr xs =>
            match xs.mapM (extractFuel n) with
            | some rs => some (some (joinSpace (keepStrings rs)))
            | none => none
          | _ =>
            if truthy (objGet fs "title") then extractFuel n (objGet fs "title")
            else some none
      | _ => some none

theorem extractFuel_mapM_mono (n : Nat)
    (ih : ∀ v r, extractFuel n v = some r → extractFuel (n + 1) v = some r) :
    ∀ (xs : List JVal) rs, xs.mapM (extractFuel n) = some rs →
      xs.mapM (extractFuel (n + 1)) = some rs := by
  intro xs
  induction xs with
  | nil => intro rs h; simpa using h
  | cons x xs ihx =>
    intro rs h
    rw [List.mapM_cons] at h ⊢
    cases hx : extractFuel n x with
    | none => rw [hx] at h; simp at h
    | some r =>
      rw [hx] at h
      cases hrest : xs.mapM (extractFuel n) with
      | none => rw [hrest] at h; simp at h
      | some rs2 =>
        rw [hrest] at h
        simp at h
        rw [ih x r hx, ihx rs2 hrest]
        simpa using h

theorem extractFuel_obj_eq (n : Nat) (fs : List (String × JVal)) :
    extractFuel (n + 1) (.obj fs) =
      (if truthy (objGet fs "text") then extractFuel n (objGet fs "text")
       else
         match objGet fs "content" with
         | .arr xs =>
           (match xs.mapM (extractFuel n) with
            | some rs => some (some (joinSpace (keepStrings rs)))
            | none => none)
         | _ =>
           if truthy (objGet fs "title") then extractFuel n (objGet fs "title")
           else some none) := by
  have ht : truthy (JVal.obj fs) = false ↔ False := by simp [truthy]
  simp only [extractFuel, ht, if_false]

theorem extractFuel_mono : ∀ n v r, extractFuel n v = some r →
    extractFuel (n + 1) v = some r := by
  intro n
  induction n with
  | zero => intro v r h; simp [extractFuel] at h
  | succ n ih =>
    intro v r h
    cases v with
    | null => simpa [extractFuel, truthy] using h
    | bool b => cases b <;> simpa [extractFuel, truthy] using h
    | num m =>
      by_cases hm : m = 0
      · subst hm; simpa [extractFuel, truthy] using h
      · simp only [extractFuel, truthy] at h ⊢
        simpa [hm] using h
    | str s => simpa [extractFuel, truthy] using h
    | arr xs => simpa [extractFuel, truthy] using h
    | obj fs =>
      rw [extractFuel_obj_eq] at h
      rw [extractFuel_obj_eq]
      by_cases htx : truthy (objGet fs "text") = true
      · rw [if_pos htx] at h; rw [if_pos htx]; exact ih _ _ h
      · rw [if_neg htx] at h; rw [if_neg htx]
        cases hc : objGet fs "content" with
        | arr xs =>
          rw [hc] at h
          dsimp only at h ⊢
          cases hmm : xs.mapM (extractFuel n) with
          | none => rw [hmm] at h; simp at h
          | some rs =>
            rw [hmm] at h
            rw [extractFuel_mapM_mono n ih xs rs hmm]
            exact h
        | null =>
          rw [hc] at h
          by_cases hti : truthy (objGet fs "title") = true
          · rw [if_pos hti] at h ⊢; exact ih _ _ h
          · rw [if_neg hti] at h ⊢; exact h
        | bool b =>
          rw [hc] at h
          by_cases hti : truthy (objGet fs "title") = true
          · rw [if_pos hti] at h ⊢; exact ih _ _ h
          · rw [if_neg hti] at h ⊢; exact h
        | num m =>
          rw [hc] at h
          by_cases hti : truthy (objGet fs "title") = true
          · rw [if_pos hti] at h ⊢; exact ih _ _ h
          · rw [if_neg hti] at h ⊢; exact h
        | str s2 =>
          rw [hc] at h
          by_cases hti : truthy (objGet fs "title") = true
          · rw [if_pos hti] at h ⊢; exact ih _ _ h
          · rw [if_neg hti] at h ⊢; exact h
        | obj fs2 =>
          rw [hc] at h
          by_cases hti : truthy (objGet fs "title") = true
          · rw [if_pos hti] at h ⊢; exact ih _ _ h
          · rw [if_neg hti] at h ⊢; exact h

theorem extractFuel_mapM_suff (n : Nat)
    (ih : ∀ v, jsize v ≤ n → ∃ r, extractFuel n v = some r) :
    ∀ xs : List JVal, (∀ x ∈ xs, jsize x ≤ n) →
      ∃ rs, xs.mapM (extractFuel n) = some rs := by
  intro xs
  induction xs with
  | nil => intro _hall; exact ⟨[], by rw [List.mapM_nil]; rfl⟩
  | cons x xs ihx =>
    intro hall
    obtain ⟨r, hr⟩ := ih x (hall x (by simp))
    obtain ⟨rs, hrs⟩ := ihx (fun z hz => hall z (by simp [hz]))
    refine ⟨r :: rs, ?_⟩
    rw [List.mapM_cons, hr, hrs]
    rfl

/-- Fuel equal to the size of the input always suffices: the recursion depth
of the source's `extract` is bounded by the size of its (finite) input. -/
theorem extractFuel_suff : ∀ n v, jsize v ≤ n → ∃ r, extractFuel n v = some r := by
  intro n
  induction n with
  | zero =>
    intro v hv
    have := jsize_pos v
    omega
  | succ n ih =>
    intro v hv
    cases v with
    | null => exact ⟨none, by simp [extractFuel, truthy]⟩
    | bool b => cases b <;> exact ⟨none, by simp [extractFuel, truthy]⟩
    | num m =>
      by_cases hm : m = 0
      · subst hm; exact ⟨none, by simp [extractFuel, truthy]⟩
      · exact ⟨none, by simp [extractFuel, truthy, hm]⟩
    | str s =>
      by_cases hs : s = ""
      · subst hs; exact ⟨none, by simp [extractFuel, truthy]⟩
      · exact ⟨some (jsTrim (stripHtml s)), by simp [extractFuel, truthy, hs]⟩
    | arr xs => exact ⟨none, by simp [extractFuel, truthy]⟩
    | obj fs =>
      rw [extractFuel_obj_eq]
      by_cases htx : truthy (objGet fs "text") = true
      · rw [if_pos htx]
        have hlt := jsize_objGet_lt fs "text" htx
        exact ih _ (by simp [jsize] at hlt hv ⊢; omega)
      · rw [if_neg htx]
        cases hc : objGet fs "content" with
        | arr xs =>
          have htc : truthy (objGet fs "content") = true := by rw [hc]; rfl
          have hlt := jsize_objGet_lt fs "content" htc
          rw [hc] at hlt
          have hx : ∀ x ∈ xs, jsize x ≤ n := by
            intro x hxm
            have := jsize_mem_lt xs x hxm
            simp [jsize] at hlt this hv ⊢
            omega
          obtain ⟨rs, hrs⟩ := extractFuel_mapM_suff n (fun v hv2 => ih v hv2) xs hx
          dsimp only
          rw [hrs]
          exact ⟨some (joinSpace (keepStrings rs)), rfl⟩
        | null =>
          by_cases hti : truthy (objGet fs "title") = true
          · rw [if_pos hti]
            have hlt := jsize_objGet_lt fs "title" hti
            exact ih _ (by simp [jsize] at hlt hv ⊢; omega)
          · rw [if_neg hti]; exact ⟨none, rfl⟩
        | bool b =>
          by_cases hti : truthy (objGet fs "title") = true
          · rw [if_pos hti]
            have hlt := jsize_objGet_lt fs "title" hti
            exact ih _ (by simp [jsize] at hlt hv ⊢; omega)
          · rw [if_neg hti]; exact ⟨none, rfl⟩
        | num m =>
          by_cases hti : truthy (objGet fs "title") = true
          · rw [if_pos hti]
            have hlt := jsize_objGet_lt fs "title" hti
            exact ih _ (by simp [jsize] at hlt hv ⊢; omega)
          · rw [if_neg hti]; exact ⟨none, rfl⟩
        | str s2 =>
          by_cases hti : truthy (objGet fs "title") = true
          · rw [if_pos hti]
            have hlt := jsize_objGet_lt fs "title" hti
            exact ih _ (by simp [jsize] at hlt hv ⊢; omega)
          · rw [if_neg hti]; exact ⟨none, rfl⟩
        | obj fs2 =>
          by_cases hti : truthy (objGet fs "title") = true
          · rw [if_pos hti]
            have hlt := jsize_objGet_lt fs "title" hti
            exact ih _ (by simp [jsize] at hlt hv ⊢; omega)
          · rw [if_neg hti]; exact ⟨none, rfl⟩

/-- Denotation of the source's unbounded recursive `extract` on finite inputs:
run `extractFuel` with fuel equal to the input's size, which
`extractFuel_suff` proves sufficient and `extract_adequate` proves canonical. -/
def extract (v : JVal) : Option String := (extractFuel (jsize v) v).getD none

theorem extract_spec (v : JVal) : extractFuel (jsize v) v = some (extract v) := by
  obtain ⟨r, hr⟩ := extractFuel_suff (jsize v) v le_rfl
  simp [extract, hr]

theorem extractFuel_mono_le : ∀ m n v r, n ≤ m → extractFuel n v = some r →
    extractFuel m v = some r := by
  intro m
  induction m with
  | zero =>
    intro n v r hn h
    have hn0 : n = 0 := by omega
    subst hn0
    simp [extractFuel] at h
  | succ m ih =>
    intro n v r hn h
    by_cases hnm : n = m + 1
    · subst hnm; exact h
    · exact extractFuel_mono m v r (ih n v r (by omega) h)

/-- Any fuel at least the size of the input computes `extract`. -/
theorem extract_adequate (n : Nat) (v : JVal) (h : jsize v ≤ n) :
    extractFuel n v = some (extract v) :=
  extractFuel_mono_le n (jsize v) v (extract v) h (extract_spec v)

/-- Conversion of `extract`'s result (a JavaScript string or `null`) to a value. -/
def optStr : Option String → JVal
  | none => .null
  | some s => .str s

/-- Embedding of `getTaskTitle` (src/services/loquizService.ts lines 46-65).
The receiver `t` is checked truthy before any field access, so plain
property accesses cannot throw here and total lookups are used. -/
def getTaskTitle (t : JVal) : JVal :=
  if truthy t = false then .str "Unknown task"
  else
    let short := jsOr (optGet t "shortIntro")
      (jsOr (optGet t "short_intro") (optGet (optGet t "comments") "shortIntro"))
    let content := optGet t "content"
    let longIntro := jsOr (optGet t "intro")
      (jsOr (optGet t "text") (jsOr (optGet t "question") (optGet t "title")))
    jsOr (optStr (extract short))
      (jsOr (optStr (extract content))
        (jsOr (optStr (extract longIntro))
          (jsOr (optGet t "id") (.str "Unknown task"))))

/-- Key cleaning shared by both revisions of the service
(src/services/loquizService.ts lines 35-38 and 345-351): trim, then strip a
case-insensitive `ApiKey-v1` prefix (9 characters) and trim again. -/
def getCleanKey (apiKey : String) : String :=
  let trimmed := jsTrim apiKey
  if jsStartsWith (jsToLower trimmed) "apikey-v1" then jsTrim (jsSubstringFrom trimmed 9)
  else trimmed

/-- Embedding of `getAuthHeaders` from the active revision
(src/services/loquizService.ts lines 34-44): the Authorization header value.
It is always the legacy scheme, regardless of the credential's dialect. -/
def getAuthHeaders (apiKey : String) : String :=
  "ApiKey-v1 " ++ getCleanKey apiKey

/-- Embedding of `isV3Key` (src/services/loquizService.ts lines 336-338). -/
def isV3Key (apiKey : String) : Bool :=
  jsStartsWith (jsToLower (jsTrim apiKey)) "apikey-v1"

/-- Embedding of `getAuthHeaders` from the second revision
(src/services/loquizService.ts lines 353-369): legacy keys get the legacy
scheme, modern keys get a Bearer header. -/
def getAuthHeadersRev2 (apiKey : String) : String :=
  if isV3Key apiKey then "ApiKey-v1 " ++ getCleanKey apiKey
  else "Bearer " ++ getCleanKey apiKey

/-- Outcome of one transport attempt in `fetchWithRetry`: either the fetch
threw (network failure), or a response with a status code arrived, carrying a
parsed JSON body (`none` models a body on which `response.json()` throws). -/
inductive TReply where
  | err : TReply
  | resp : Nat → Option JVal → TReply
deriving DecidableEq

/-- The `Response.ok` flag: status in the 2xx range. -/
def isOkStatus (s : Nat) : Bool := 200 ≤ s && s ≤ 299

/-- The stopping condition of `fetchWithRetry` (line 22):
`res.ok || [404, 401, 403, 422].includes(res.status)`. -/
def stopStatus (s : Nat) : Bool :=
  isOkStatus s || s == 404 || s == 401 || s == 403 || s == 422

/-- Embedding of `fetchWithRetry` (src/services/loquizService.ts lines 13-32).
The input lists the replies the transports (direct, then the proxies) would
give, in order.  The result is the response the function returns (`none`
models the final `throw lastError` after all transports fail) paired with the
number of requests that were actually issued. -/
def fetchWithRetry : List TReply → Option (Nat × Option JVal) × Nat
  | [] => (none, 0)
  | .err :: rest =>
    let (r, n) := fetchWithRetry rest
    (r, n + 1)
  | .resp s b :: rest =>
    if stopStatus s then (some (s, b), 1)
    else
      let (r, n) := fetchWithRetry rest
      (r, n + 1)

/-- Embedding of `Array.isArray(json) ? json : (json.data || json.items || [])`
(the response normalizer of `fetchGameResults`, line 173, and of
`fetchGameTasks`, line 149).  Field access on a null body throws. -/
def unwrapDataFirst (j : JVal) : Except Unit JVal :=
  match j with
  | .arr _ => .ok j
  | .null => .error ()
  | _ =>
    if truthy (optGet j "data") then .ok (optGet j "data")
    else if truthy (optGet j "items") then .ok (optGet j "items")
    else .ok (.arr [])

/-- Embedding of `Array.isArray(json) ? json : (json.items || json.data || [])`
(the response normalizer of `fetchGames`, line 92, and of `fetchGamePhotos`,
line 220): note `items` is preferred over `data` here. -/
def unwrapItemsFirst (j : JVal) : Except Unit JVal :=
  match j with
  | .arr _ => .ok j
  | .null => .error ()
  | _ =>
    if truthy (optGet j "items") then .ok (optGet j "items")
    else if truthy (optGet j "data") then .ok (optGet j "data")
    else .ok (.arr [])

/-- The normalizer used by the results operation (line 173). -/
def unwrapResults : JVal → Except Unit JVal := unwrapDataFirst

/-- The normalizer used by the games operation (line 92). -/
def unwrapGames : JVal → Except Unit JVal := unwrapItemsFirst

/-- The normalizer used by the photos operation (line 220). -/
def unwrapPhotos : JVal → Except Unit JVal := unwrapItemsFirst

/-- A mapped answer (lines 178-186 of src/services/loquizService.ts). -/
structure PlayerAnswer where
  taskId : JVal
  isCorrect : JVal
  score : JVal
  raw : JVal
deriving DecidableEq

/-- JavaScript `v > 0` for the score check; only numeric scores compare
greater than zero here (no claim depends on ToNumber coercion of
non-numeric scores). -/
def jsGT0 (v : JVal) : Bool :=
  match v with
  | .num n => 0 < n
  | _ => false

/-- The raw task id resolution of line 179:
`a.taskId || a.questionId || a.task?.id || a.question?.id || a.question_id`. -/
def rawTaskId (a : JVal) : JVal :=
  jsOr (optGet a "taskId")
    (jsOr (optGet a "questionId")
      (jsOr (optGet (optGet a "task") "id")
        (jsOr (optGet (optGet a "question") "id") (optGet a "question_id"))))

/-- Embedding of the per-answer mapping (lines 178-185).  `a.taskId` on a null
answer record throws a TypeError, which the candidate loop catches. -/
def mapAnswer (a : JVal) : Except Unit PlayerAnswer :=
  match a with
  | .null => .error ()
  | _ =>
    let sc := optGet a "score"
    .ok { taskId := jsOr (rawTaskId a) (.str "unknown-id"),
          isCorrect := jsOr (.bool (decide (optGet a "isCorrect" = JVal.bool true)))
            (jsAnd sc (.bool (jsGT0 sc))),
          score := jsOr sc (.num 0),
          raw := a }

/-- The answers list of one team (lines 178-186): map every raw answer, then
drop those whose task id resolved to the placeholder `unknown-id`. -/
def answersOf (raws : List JVal) : Except Unit (List PlayerAnswer) := do
  let mapped ← raws.mapM mapAnswer
  return mapped.filter (fun a => a.taskId != JVal.str "unknown-id")

/-- A mapped team result (lines 188-197 of src/services/loquizService.ts). -/
structure PlayerResult where
  position : JVal
  name : JVal
  score : JVal
  correctAnswers : JVal
  incorrectAnswers : JVal
  isFinished : JVal
  color : JVal
  answers : List PlayerAnswer
deriving DecidableEq

/-- The `(team.answers || []).map(...)` receiver of line 178: a truthy
non-array `answers` value has no `.map` method and throws. -/
def teamAnswersList (team : JVal) : Except Unit (List JVal) :=
  match jsOr (optGet team "answers") (.arr []) with
  | .arr xs => .ok xs
  | _ => .error ()

/-- Embedding of the per-team mapping (lines 177-198).  `team.answers` on a
null element throws; `.map` on a truthy non-array `answers` value throws. -/
def mapTeam (index : Nat) (team : JVal) : Except Unit PlayerResult :=
  match team with
  | .null => .error ()
  | _ => do
    let ansList ← teamAnswersList team
    let answers ← answersOf ansList
    return {
      position := jsOr (optGet team "position") (.num ((index : Int) + 1)),
      name := jsOr (optGet team "name") (jsOr (optGet team "teamName") (.str "Unknown Team")),
      score := jsNullish (optGet team "totalScore")
        (jsNullish (optGet team "answersScore") (jsNullish (optGet team "score") (.num 0))),
      correctAnswers := optGet team "correctAnswers",
      incorrectAnswers := optGet team "incorrectAnswers",
      isFinished := optGet team "isFinished",
      color := optGet team "color",
      answers := answers }

/-- Processing of one 2xx body by `fetchGameResults` (lines 172-198).
`none` means the candidate loop moves on to the next endpoint: either the
normalized collection was empty (`data.length === 0` then `continue`), or a
TypeError thrown during normalization or mapping was caught.  A truthy
non-array normalization result always ends in one of those two ways. -/
def runResultsBody (j : JVal) : Option (List PlayerResult) :=
  match unwrapResults j with
  | .error _ => none
  | .ok (.arr []) => none
  | .ok (.arr xs) =>
    match xs.enum.mapM (fun p => mapTeam p.1 p.2) with
    | .ok ts => some ts
    | .error _ => none
  | .ok _ => none

/-- Embedding of `fetchGameResults`'s candidate-endpoint loop (lines 162-203).
The input gives, per candidate endpoint, the transport replies.  The output is
the returned team list (the final `return []` when every candidate was
skipped) paired with the total number of requests issued.  Every failure mode
of a candidate — transport exhaustion, a non-2xx stopping status, an
unparseable body, an empty or malformed collection — continues with the next
candidate; nothing is thrown to the caller. -/
def fetchGameResults : List (List TReply) → List PlayerResult × Nat
  | [] => ([], 0)
  | cand :: rest =>
    let (res, n) := fetchWithRetry cand
    match res with
    | some (s, some j) =>
      if isOkStatus s then
        match runResultsBody j with
        | some ts => (ts, n)
        | none =>
          let (ts, m) := fetchGameResults rest
          (ts, n + m)
      else
        let (ts, m) := fetchGameResults rest
        (ts, n + m)
    | _ =>
      let (ts, m) := fetchGameResults rest
      (ts, n + m)

/-- A mapped photo (lines 259-269 of src/services/loquizService.ts). -/
structure GamePhoto where
  id : JVal
  url : JVal
  thumbnailUrl : JVal
  teamName : JVal
  taskTitle : JVal
  timestamp : JVal
deriving DecidableEq

/-- Embedding of the per-record photo mapping (lines 259-270).  `p.url` on a
null record throws (this map is not inside a try/catch).  The expression
`String(Math.random())` for a missing id is modelled by the injected
generator `rnd` applied to the record's index. -/
def mkPhoto (rnd : Nat → String) (idx : Nat) (p : JVal) : Except Unit GamePhoto :=
  match p with
  | .null => .error ()
  | _ =>
    let url := jsOr (optGet p "url")
      (jsOr (optGet p "mediaUrl")
        (jsOr (optGet p "file") (jsOr (optGet p "imageUrl") (optGet p "large"))))
    .ok { id := jsOr (optGet p "id") (.str (rnd idx)),
          url := url,
          thumbnailUrl := jsOr (optGet p "thumbnailUrl")
            (jsOr (optGet p "thumbnail")
              (jsOr (optGet p "thumb") (jsOr (optGet p "small") url))),
          teamName := jsOr (optGet (optGet p "team") "name")
            (jsOr (optGet p "teamName") (.str "Unknown Team")),
          taskTitle := jsOr (getTaskTitle (jsOr (optGet p "task") (optGet p "question")))
            (jsOr (optGet p "taskTitle") (.str "Photo")),
          timestamp := jsOr (optGet p "timestamp")
            (jsOr (optGet p "created") (optGet p "createdAt")) }

/-- The dedup filter of lines 271-275: keep a photo when its url is truthy and
not yet seen; the `Set` membership is structural equality (SameValueZero) on
the primitive urls the API returns. -/
def dedupByUrl : List GamePhoto → List JVal → List GamePhoto
  | [], _ => []
  | p :: ps, seen =>
    if truthy p.url = false ∨ p.url ∈ seen then dedupByUrl ps seen
    else p :: dedupByUrl ps (seen ++ [p.url])

/-- Embedding of the final stage of `fetchGamePhotos` (lines 257-275): map the
accumulated candidate records (from the dedicated media endpoints, the
team-level media scan and the answer-media scan, lines 205-255) into photos,
then deduplicate by url, first occurrence winning. -/
def finalizePhotos (rnd : Nat → String) (photos : List JVal) : Except Unit (List GamePhoto) := do
  let mapped ← photos.enum.mapM (fun q => mkPhoto rnd q.1 q.2)
  return dedupByUrl mapped []

/-- A task catalog entry as built by `LoquizResults.loadData`
(src/unnamed/part_000). -/
structure GameTask where
  id : JVal
  title : JVal
  type : JVal
deriving DecidableEq

/-- One step of the synthetic-task loop (part_000 lines 79-90): if the answer's
task id is not yet known, record it and append a synthetic entry. -/
def addSyntheticId (acc : List JVal × List GameTask) (tid : JVal) : List JVal × List GameTask :=
  if tid ∈ acc.1 then acc
  else (acc.1 ++ [tid], acc.2 ++ [{ id := tid, title := tid, type := .str "synthetic" }])

/-- Embedding of the task reconciliation in `loadData` (part_000 lines 75-93):
seed the known-id set with the authoritative catalog's ids, walk every team's
answers in order, synthesize `{id, title: id, type: 'synthetic'}` entries for
unseen ids, and append them after the authoritative entries. -/
def reconcileTasks (finalTasks : List GameTask) (resultsData : List PlayerResult) : List GameTask :=
  if resultsData.length > 0 then
    let start := (finalTasks.map (fun t => t.id), ([] : List GameTask))
    let out := resultsData.foldl
      (fun acc team => team.answers.foldl (fun a2 ans => addSyntheticId a2 ans.taskId) acc) start
    finalTasks ++ out.2
  else finalTasks

/-- The stream of task ids referenced by answers, in walk order. -/
def answerIdStream (resultsData : List PlayerResult) : List JVal :=
  (resultsData.map (fun t => t.answers.map (fun a => a.taskId))).flatten

/-- Stated from the spec's words, for comparison with the implementation:
the ids not in `known`, in the order they are first encountered. -/
def firstSeenNew (known : List JVal) (stream : List JVal) : List JVal :=
  stream.foldl (fun acc tid => if tid ∈ known ∨ tid ∈ acc then acc else acc ++ [tid]) []

/-- State of the poll diff tracker (`totalAnswerCountRef`, `isFirstLoadRef` in
src/unnamed/part_000 lines 33-34).  `LoquizResults` is conditionally rendered
by App.tsx and remounts whenever the selected game changes, which recreates
both refs; a game change therefore resets the tracker to this initial state. -/
structure PollTracker where
  totalAnswerCount : Nat
  isFirstLoad : Bool
deriving DecidableEq

/-- The tracker state on mount (and after a game change). -/
def initTracker : PollTracker := { totalAnswerCount := 0, isFirstLoad := true }

/-- One polling observation (part_000 lines 44-53): emit a delta when this is
not the first load and the total grew; always store the new total and clear
the first-load flag. -/
def observe (st : PollTracker) (newTotal : Nat) : Option Nat × PollTracker :=
  (if st.isFirstLoad = false ∧ st.totalAnswerCount < newTotal
    then some (newTotal - st.totalAnswerCount) else none,
   { totalAnswerCount := newTotal, isFirstLoad := false })

/-- Fold of `observe` over a snapshot sequence, collecting the emissions. -/
def observeSeq (st : PollTracker) : List Nat → List (Option Nat)
  | [] => []
  | t :: ts =>
    let (e, st2) := observe st t
    e :: observeSeq st2 ts

/-- The total answer count of a snapshot (part_000 lines 44-45). -/
def totalAnswers (rs : List PlayerResult) : Nat :=
  (rs.map (fun t => t.answers.length)).sum

instance {ε α : Type} [DecidableEq ε] [DecidableEq α] : DecidableEq (Except ε α) := fun a b =>
  match a, b with
  | .ok x, .ok y => if h : x = y then .isTrue (by rw [h]) else .isFalse (by simp [h])
  | .error x, .error y => if h : x = y then .isTrue (by rw [h]) else .isFalse (by simp [h])
  | .ok _, .error _ => .isFalse (by simp)
  | .error _, .ok _ => .isFalse (by simp)

/-- Claim C2, counterexample: in the active `getAuthHeaders` (lines 34-44) a
bare modern token does NOT produce a Bearer header; the legacy scheme is used
unconditionally. -/
theorem c2_counterexample :
    getAuthHeaders "abcdef0123456789" = "ApiKey-v1 abcdef0123456789" ∧
    getAuthHeaders "abcdef0123456789" ≠ "Bearer abcdef0123456789" := by
  constructor
  · rfl
  · decide

/-- Claim C2 (amended): the active `getAuthHeaders` always emits the legacy
scheme `ApiKey-v1` followed by the cleaned (prefix-stripped, trimmed) token,
for legacy and modern credentials alike; only the second revision
(`getAuthHeadersRev2`, lines 353-369) implements the claimed dispatch, where a
credential without the legacy prefix produces `Bearer ` followed by the
trimmed token. -/
theorem c2_amended (key : String) (h : isV3Key key = false) :
    getAuthHeaders key = "ApiKey-v1 " ++ getCleanKey key ∧
    getAuthHeadersRev2 key = "Bearer " ++ jsTrim key := by
  have hs : jsStartsWith (jsToLower (jsTrim key)) "apikey-v1" = false := h
  constructor
  · rfl
  · simp [getAuthHeadersRev2, isV3Key, hs, getCleanKey]

/-- Witness for `c2_amended` at the bare token from the spec's example. -/
theorem c2_amended_witness :
    getAuthHeadersRev2 "abcdef0123456789" = "Bearer " ++ jsTrim "abcdef0123456789" :=
  (c2_amended "abcdef0123456789" (by decide)).2

/-- Claim C5: the poll diff tracker observing totals `[5, 5, 8, 8]` from the
initial state emits exactly on the third observation with delta 3; the first
observation never emits; a total at most the stored total stores the new total
and emits nothing; and from the reset (initial) state — which a game change
restores by remounting `LoquizResults` — the next snapshot never notifies
whatever its count. -/
theorem c5_poll_tracker :
    observeSeq initTracker [5, 5, 8, 8] = [none, none, some 3, none] ∧
    (∀ t, (observe initTracker t).1 = none) ∧
    (∀ st t, t ≤ st.totalAnswerCount →
      (observe st t).1 = none ∧ (observe st t).2.totalAnswerCount = t) := by
  refine ⟨by decide, ?_, ?_⟩
  · intro t
    simp [observe, initTracker]
  · intro st t h
    constructor
    · simp [observe]
      intro _
      omega
    · simp [observe]

/-- Witness for `c5_poll_tracker`: a shrinking total (8 then 3) emits nothing
and stores the correction. -/
theorem c5_poll_tracker_witness :
    (observe { totalAnswerCount := 8, isFirstLoad := false } 3).1 = none ∧
    (observe { totalAnswerCount := 8, isFirstLoad := false } 3).2.totalAnswerCount = 3 :=
  c5_poll_tracker.2.2 { totalAnswerCount := 8, isFirstLoad := false } 3 (by decide)

/-- Claim C7, counterexample: the games-operation normalizer (line 92) prefers
`items` over `data`, contradicting the claimed data-before-items order. -/
theorem c7_counterexample :
    unwrapGames (.obj [("data", .arr [.str "d"]), ("items", .arr [.str "i"])])
      = .ok (.arr [.str "i"]) ∧
    JVal.arr [.str "i"] ≠ JVal.arr [.str "d"] := by
  constructor
  · rfl
  · decide

theorem unwrapDataFirst_total : ∀ j, j ≠ JVal.null → ∃ v, unwrapDataFirst j = .ok v := by
  intro j hj
  unfold unwrapDataFirst
  cases j with
  | null => exact absurd rfl hj
  | arr xs => exact ⟨.arr xs, rfl⟩
  | bool b => dsimp only; split <;> try split
              all_goals exact ⟨_, rfl⟩
  | num m => dsimp only; split <;> try split
             all_goals exact ⟨_, rfl⟩
  | str s => dsimp only; split <;> try split
             all_goals exact ⟨_, rfl⟩
  | obj fs => dsimp only; split <;> try split
              all_goals exact ⟨_, rfl⟩

theorem unwrapItemsFirst_total : ∀ j, j ≠ JVal.null → ∃ v, unwrapItemsFirst j = .ok v := by
  intro j hj
  unfold unwrapItemsFirst
  cases j with
  | null => exact absurd rfl hj
  | arr xs => exact ⟨.arr xs, rfl⟩
  | bool b => dsimp only; split <;> try split
              all_goals exact ⟨_, rfl⟩
  | num m => dsimp only; split <;> try split
             all_goals exact ⟨_, rfl⟩
  | str s => dsimp only; split <;> try split
             all_goals exact ⟨_, rfl⟩
  | obj fs => dsimp only; split <;> try split
              all_goals exact ⟨_, rfl⟩

/-- Claim C7 (amended): an array body passes through unchanged in every
normalizer; when both `data` and `items` hold arrays, the results-operation
normalizer returns the `data` array but the games and photos normalizers
return the `items` array; when both fields are falsy the result is the empty
list; no non-null body makes a normalizer throw, while a null body throws
(the surrounding candidate loop catches it). -/
theorem c7_amended :
    (∀ xs : List JVal, unwrapResults (.arr xs) = .ok (.arr xs) ∧
      unwrapGames (.arr xs) = .ok (.arr xs) ∧ unwrapPhotos (.arr xs) = .ok (.arr xs)) ∧
    (∀ fs ds es, List.lookup "data" fs = some (.arr ds) →
      List.lookup "items" fs = some (.arr es) →
      unwrapResults (.obj fs) = .ok (.arr ds) ∧
      unwrapGames (.obj fs) = .ok (.arr es) ∧ unwrapPhotos (.obj fs) = .ok (.arr es)) ∧
    (∀ fs, truthy (objGet fs "data") = false → truthy (objGet fs "items") = false →
      unwrapResults (.obj fs) = .ok (.arr []) ∧ unwrapGames (.obj fs) = .ok (.arr [])) ∧
    (∀ j, j ≠ JVal.null →
      (∃ v, unwrapResults j = .ok v) ∧ (∃ v, unwrapGames j = .ok v)) ∧
    unwrapResults .null = .error () ∧ unwrapGames .null = .error () := by
  refine ⟨?_, ?_, ?_, ?_, rfl, rfl⟩
  · intro xs
    exact ⟨rfl, rfl, rfl⟩
  · intro fs ds es hd hi
    have h1 : objGet fs "data" = .arr ds := by simp [objGet, hd]
    have h2 : objGet fs "items" = .arr es := by simp [objGet, hi]
    refine ⟨?_, ?_, ?_⟩ <;>
      simp [unwrapResults, unwrapGames, unwrapPhotos, unwrapDataFirst, unwrapItemsFirst,
        optGet, h1, h2, truthy]
  · intro fs h1 h2
    constructor <;>
      simp [unwrapResults, unwrapGames, unwrapDataFirst, unwrapItemsFirst, optGet, h1, h2]
  · intro j hj
    exact ⟨unwrapDataFirst_total j hj, unwrapItemsFirst_total j hj⟩

/-- Witness for `c7_amended` at a body carrying both envelope fields. -/
theorem c7_amended_witness :
    unwrapResults (.obj [("data", .arr [.str "d"]), ("items", .arr [.str "i"])])
      = .ok (.arr [.str "d"]) ∧
    unwrapGames (.obj [("data", .arr [.str "d"]), ("items", .arr [.str "i"])])
      = .ok (.arr [.str "i"]) := by
  have h := c7_amended.2.1 [("data", JVal.arr [.str "d"]), ("items", .arr [.str "i"])]
    [.str "d"] [.str "i"] (by decide) (by decide)
  exact ⟨h.1, h.2.1⟩

/-- Claim C1, counterexample: with candidate endpoint 1 answering 401 and
candidate 2 answering 200 with one team, `fetchGameResults` issues a second
request (two in total) and returns candidate 2's team instead of raising an
AuthError after the 401. -/
theorem c1_counterexample :
    (fetchGameResults [[TReply.resp 401 (some (.arr []))],
      [TReply.resp 200 (some (.arr [.obj [("name", .str "A")]]))]]).2 = 2 ∧
    (fetchGameResults [[TReply.resp 401 (some (.arr []))],
      [TReply.resp 200 (some (.arr [.obj [("name", .str "A")]]))]]).1 ≠ [] := by
  constructor
  · rfl
  · decide

/-- Whether a transport reply makes `fetchWithRetry` stop and return it. -/
def stopRep : TReply → Bool
  | .err => false
  | .resp s _ => stopStatus s

/-- Claim C1 (amended): a 401/403 (or any stopping status) response does stop
the transport loop — `fetchWithRetry` returns it without issuing requests to
the remaining transports of that candidate — but no AuthError is raised: on a
non-2xx outcome `fetchGameResults` proceeds to the remaining candidate
endpoints (and ultimately returns an empty list if none succeeds). -/
theorem c1_amended :
    (∀ pre s b rest, (∀ r ∈ pre, stopRep r = false) → stopStatus s = true →
      fetchWithRetry (pre ++ TReply.resp s b :: rest) = (some (s, b), pre.length + 1)) ∧
    (∀ cand rest s b n, fetchWithRetry cand = (some (s, b), n) → isOkStatus s = false →
      fetchGameResults (cand :: rest) =
        ((fetchGameResults rest).1, n + (fetchGameResults rest).2)) := by
  constructor
  · intro pre
    induction pre with
    | nil =>
      intro s b rest _ hstop
      simp [fetchWithRetry, hstop]
    | cons r pre ih =>
      intro s b rest hall hstop
      have hr := hall r (by simp)
      cases r with
      | err =>
        simp only [List.cons_append, fetchWithRetry, List.append_eq]
        rw [ih s b rest (fun z hz => hall z (by simp [hz])) hstop]
        simp
      | resp s2 b2 =>
        have hs2 : stopStatus s2 = false := hr
        simp only [List.cons_append, fetchWithRetry, hs2, Bool.false_eq_true, if_false,
          List.append_eq]
        rw [ih s b rest (fun z hz => hall z (by simp [hz])) hstop]
        simp
  · intro cand rest s b n h hok
    rcases hrest : fetchGameResults rest with ⟨ts, m⟩
    cases b <;> simp [fetchGameResults, h, hok, hrest]

/-- Witness for `c1_amended`: a network failure then a 401 stops after the
second transport, and a 401 candidate is followed by a request to the next
candidate list. -/
theorem c1_amended_witness :
    fetchWithRetry ([TReply.err] ++ TReply.resp 401 (some (.arr []))
        :: [TReply.resp 200 (some (.arr []))])
      = (some (401, some (.arr [])), [TReply.err].length + 1) ∧
    fetchGameResults ([TReply.resp 401 (some (.arr []))] :: [[]]) =
      ((fetchGameResults [[]]).1, 1 + (fetchGameResults [[]]).2) := by
  constructor
  · exact c1_amended.1 [TReply.err] 401 (some (.arr []))
      [TReply.resp 200 (some (.arr []))] (by decide) (by decide)
  · exact c1_amended.2 [TReply.resp 401 (some (.arr []))] [[]] 401 (some (.arr []))
      1 (by decide) (by decide)

/-- A candidate endpoint whose transports resolve to a 2xx response whose
normalized record list is empty. -/
def candidateEmptyOk (cand : List TReply) : Bool :=
  match fetchWithRetry cand with
  | (some (s, some j), _) =>
    isOkStatus s &&
      (match unwrapResults j with
       | .ok (.arr []) => true
       | _ => false)
  | _ => false

/-- Claim C3: for the results operation a 2xx response with an empty
normalized collection advances to the next candidate endpoint, and if every
candidate yields such an empty success the result is the empty list, not an
error. -/
theorem c3_empty_results :
    (∀ cand rest, candidateEmptyOk cand = true →
      (fetchGameResults (cand :: rest)).1 = (fetchGameResults rest).1) ∧
    (∀ cands, (∀ cand ∈ cands, candidateEmptyOk cand = true) →
      (fetchGameResults cands).1 = []) := by
  have main : ∀ cand rest, candidateEmptyOk cand = true →
      (fetchGameResults (cand :: rest)).1 = (fetchGameResults rest).1 := by
    intro cand rest hc
    unfold candidateEmptyOk at hc
    rcases hw : fetchWithRetry cand with ⟨res, n⟩
    rw [hw] at hc
    cases res with
    | none => simp at hc
    | some p =>
      rcases p with ⟨s, ob⟩
      cases ob with
      | none => simp at hc
      | some j =>
        simp only [Bool.and_eq_true] at hc
        obtain ⟨hok, hemp⟩ := hc
        have hrun : runResultsBody j = none := by
          unfold runResultsBody
          cases hu : unwrapResults j with
          | error e => rfl
          | ok v =>
            rw [hu] at hemp
            cases v with
            | arr xs =>
              cases xs with
              | nil => rfl
              | cons y ys => simp at hemp
            | null => simp at hemp
            | bool b2 => simp at hemp
            | num m2 => simp at hemp
            | str s2 => simp at hemp
            | obj fs2 => simp at hemp
        rcases hrest : fetchGameResults rest with ⟨ts, m⟩
        simp [fetchGameResults, hw, hok, hrun, hrest]
  refine ⟨main, ?_⟩
  intro cands
  induction cands with
  | nil => intro _h; rfl
  | cons c cs ih =>
    intro hall
    rw [main c cs (hall c (by simp))]
    exact ih (fun z hz => hall z (by simp [hz]))

/-- Witness for `c3_empty_results` at a single candidate returning a 2xx with
an empty `data` envelope. -/
theorem c3_empty_results_witness :
    candidateEmptyOk [TReply.resp 200 (some (.obj [("data", .arr [])]))] = true ∧
    (fetchGameResults [[TReply.resp 200 (some (.obj [("data", .arr [])]))]]).1 = [] :=
  ⟨by decide,
   c3_empty_results.2 [[TReply.resp 200 (some (.obj [("data", .arr [])]))]] (by
     intro cand hc
     simp at hc
     subst hc
     decide)⟩

theorem mapAnswer_taskId (a : JVal) (pa : PlayerAnswer) (h : mapAnswer a = .ok pa) :
    pa.taskId = jsOr (rawTaskId a) (.str "unknown-id") := by
  cases a with
  | null => exact absurd h (by simp [mapAnswer])
  | bool b =>
    simp only [mapAnswer, Except.ok.injEq] at h
    rw [← h]
  | num n =>
    simp only [mapAnswer, Except.ok.injEq] at h
    rw [← h]
  | str s =>
    simp only [mapAnswer, Except.ok.injEq] at h
    rw [← h]
  | arr xs =>
    simp only [mapAnswer, Except.ok.injEq] at h
    rw [← h]
  | obj fs =>
    simp only [mapAnswer, Except.ok.injEq] at h
    rw [← h]

/-- A raw answer record carries a usable task id: the resolved raw id is
truthy and is not itself the literal placeholder string. -/
def usableId (a : JVal) : Bool :=
  truthy (rawTaskId a) && (rawTaskId a != JVal.str "unknown-id")

theorem keep_eq_usable (a : JVal) :
    (jsOr (rawTaskId a) (.str "unknown-id") != JVal.str "unknown-id") = usableId a := by
  unfold usableId jsOr
  by_cases ht : truthy (rawTaskId a) = true
  · simp [ht]
  · simp only [Bool.not_eq_true] at ht
    simp [ht]

theorem mapM_except_cons (a : JVal) (raws : List JVal) :
    (a :: raws).mapM mapAnswer =
      (match mapAnswer a with
       | .error e => .error e
       | .ok pa =>
         match raws.mapM mapAnswer with
         | .error e => .error e
         | .ok rest => .ok (pa :: rest)) := by
  rw [List.mapM_cons]
  cases mapAnswer a <;> cases hmm : raws.mapM mapAnswer <;> simp [hmm] <;> rfl

theorem answersOf_eq (l : List JVal) :
    answersOf l =
      (match l.mapM mapAnswer with
       | .error e => .error e
       | .ok mapped => .ok (mapped.filter (fun x => x.taskId != JVal.str "unknown-id"))) := by
  unfold answersOf
  cases l.mapM mapAnswer <;> rfl

/-- Claim C10: every answer surviving the mapping of lines 178-186 has a task
id equal to the resolution of `taskId`/`questionId`/`task.id`/`question.id`/
`question_id`, never the placeholder; and a raw record whose resolved id is
unusable (all those fields absent or falsy, or literally the placeholder
string) is silently omitted, so the surviving answers are counted exactly by
the records with usable ids. -/
theorem c10_answer_ids : ∀ raws lst, answersOf raws = Except.ok lst →
    (∀ ans ∈ lst, ans.taskId ≠ .str "unknown-id" ∧
      ∃ a ∈ raws, mapAnswer a = .ok ans ∧ ans.taskId = rawTaskId a) ∧
    lst.length = (raws.filter usableId).length := by
  intro raws
  induction raws with
  | nil =>
    intro lst h
    have hnil : (([] : List JVal).mapM mapAnswer) = Except.ok [] := rfl
    rw [answersOf_eq, hnil] at h
    have h0 : lst = [] := by simpa using h.symm
    subst h0
    exact ⟨by simp, by simp⟩
  | cons a raws ih =>
    intro lst h
    rw [answersOf_eq, mapM_except_cons] at h
    cases hma : mapAnswer a with
    | error e =>
      rw [hma] at h
      simp at h
    | ok pa =>
      rw [hma] at h
      cases hmm : raws.mapM mapAnswer with
      | error e =>
        rw [hmm] at h
        simp at h
      | ok rest =>
        rw [hmm] at h
        have h2 : (pa :: rest).filter (fun x => x.taskId != JVal.str "unknown-id") = lst := by
          simpa using h
        have hrec : answersOf raws
            = .ok (rest.filter (fun x => x.taskId != JVal.str "unknown-id")) := by
          rw [answersOf_eq, hmm]
        obtain ⟨ih1, ih2⟩ := ih _ hrec
        have hkeep : (pa.taskId != JVal.str "unknown-id") = usableId a := by
          rw [mapAnswer_taskId a pa hma, keep_eq_usable]
        constructor
        · intro ans hans
          rw [← h2] at hans
          rw [List.filter_cons] at hans
          by_cases hk : (pa.taskId != JVal.str "unknown-id") = true
          · rw [if_pos hk] at hans
            rcases List.mem_cons.mp hans with hh | hh
            · rw [hh]
              have hne : pa.taskId ≠ JVal.str "unknown-id" := by
                intro hcontra
                rw [hcontra] at hk
                simp at hk
              refine ⟨hne, a, by simp, hma, ?_⟩
              have htid := mapAnswer_taskId a pa hma
              have htr : truthy (rawTaskId a) = true := by
                by_contra hcontra
                simp only [Bool.not_eq_true] at hcontra
                rw [htid] at hne
                simp [jsOr, hcontra] at hne
              rw [htid]
              simp [jsOr, htr]
            · obtain ⟨hne, a2, ha2, hrest⟩ := ih1 ans hh
              exact ⟨hne, a2, by simp [ha2], hrest⟩
          · rw [if_neg hk] at hans
            obtain ⟨hne, a2, ha2, hrest⟩ := ih1 ans hans
            exact ⟨hne, a2, by simp [ha2], hrest⟩
        · rw [← h2, List.filter_cons, List.filter_cons, hkeep]
          by_cases hu : usableId a = true
          · simp [hu, ih2]
          · simp only [Bool.not_eq_true] at hu
            simp [hu, ih2]

/-- Witness for `c10_answer_ids`: one answer with a `questionId`, one with no
id field at all — only the first survives. -/
theorem c10_answer_ids_witness :
    answersOf [JVal.obj [("questionId", .str "q1")], JVal.obj [("foo", .str "x")]]
      = Except.ok [{ taskId := .str "q1",
                     isCorrect := JVal.null,
                     score := .num 0,
                     raw := JVal.obj [("questionId", .str "q1")] }] ∧
    [({ taskId := .str "q1",
        isCorrect := JVal.null,
        score := .num 0,
        raw := JVal.obj [("questionId", .str "q1")] } : PlayerAnswer)].length
      = ([JVal.obj [("questionId", .str "q1")], JVal.obj [("foo", .str "x")]].filter
          usableId).length := by
  constructor
  · decide
  · exact (c10_answer_ids [JVal.obj [("questionId", .str "q1")], JVal.obj [("foo", .str "x")]]
      _ (by decide)).2

theorem mapM_except_cons_gen {α β : Type} (f : α → Except Unit β) (a : α) (l : List α) :
    (a :: l).mapM f =
      (match f a with
       | .error e => .error e
       | .ok b =>
         match l.mapM f with
         | .error e => .error e
         | .ok bs => .ok (b :: bs)) := by
  rw [List.mapM_cons]
  cases f a <;> cases hl : l.mapM f <;> simp [hl] <;> rfl

theorem mapTeam_eq (k : Nat) (team : JVal) (hnn : team ≠ .null) :
    mapTeam k team =
      Except.bind (teamAnswersList team) (fun ansList =>
        Except.map (fun answers => ({
          position := jsOr (optGet team "position") (.num ((k : Int) + 1)),
          name := jsOr (optGet team "name")
            (jsOr (optGet team "teamName") (.str "Unknown Team")),
          score := jsNullish (optGet team "totalScore")
            (jsNullish (optGet team "answersScore")
              (jsNullish (optGet team "score") (.num 0))),
          correctAnswers := optGet team "correctAnswers",
          incorrectAnswers := optGet team "incorrectAnswers",
          isFinished := optGet team "isFinished",
          color := optGet team "color",
          answers := answers } : PlayerResult)) (answersOf ansList)) := by
  cases team with
  | null => exact absurd rfl hnn
  | bool b => rfl
  | num n => rfl
  | str s => rfl
  | arr xs => rfl
  | obj fs => rfl

theorem mapTeam_position (k : Nat) (x : JVal) (t : PlayerResult)
    (h : mapTeam k x = .ok t) :
    t.position = jsOr (optGet x "position") (.num ((k : Int) + 1)) := by
  have hnn : x ≠ .null := by
    intro he
    subst he
    simp [mapTeam] at h
  rw [mapTeam_eq k x hnn] at h
  cases h1 : teamAnswersList x with
  | error e => rw [h1] at h; simp [Except.bind] at h
  | ok l =>
    rw [h1] at h
    simp only [Except.bind] at h
    cases h2 : answersOf l with
    | error e => rw [h2] at h; simp [Except.map] at h
    | ok answers =>
      rw [h2] at h
      simp only [Except.map, Except.ok.injEq] at h
      rw [← h]

theorem mapM_teams_positions : ∀ (xs : List JVal) (k : Nat) (ts : List PlayerResult),
    (List.enumFrom k xs).mapM (fun p => mapTeam p.1 p.2) = .ok ts →
    (∀ x ∈ xs, truthy (optGet x "position") = false) →
    ts.map (fun t => t.position)
      = (List.range' (k + 1) xs.length).map (fun i => JVal.num (Int.ofNat i)) := by
  intro xs
  induction xs with
  | nil =>
    intro k ts h _
    have h0 : ts = [] := by
      have : ([] : List (Nat × JVal)).mapM (fun p => mapTeam p.1 p.2) = .ok [] := rfl
      simp only [List.enumFrom] at h
      rw [this] at h
      simpa using h.symm
    subst h0
    simp
  | cons x xs ih =>
    intro k ts h hall
    simp only [List.enumFrom] at h
    rw [mapM_except_cons_gen] at h
    cases hmt : mapTeam k x with
    | error e => rw [hmt] at h; simp at h
    | ok t =>
      rw [hmt] at h
      cases hmm : (List.enumFrom (k + 1) xs).mapM (fun p => mapTeam p.1 p.2) with
      | error e => rw [hmm] at h; simp at h
      | ok rest =>
        rw [hmm] at h
        have hts : t :: rest = ts := by simpa using h
        subst hts
        have hpos := mapTeam_position k x t hmt
        have hx := hall x (by simp)
        have hhead : t.position = JVal.num ((k : Int) + 1) := by
          rw [hpos]
          simp [jsOr, hx]
        have htail := ih (k + 1) rest hmm (fun z hz => hall z (by simp [hz]))
        simp only [List.map_cons, hhead, htail, List.length_cons]
        rw [List.range'_succ]
        simp

/-- Claim C9, counterexample: a raw team carrying `position: 7` is passed
through (`team.position || index + 1`), so the single team of this snapshot
has position 7, not position 1 — the positions are not the dense 1..n. -/
theorem c9_counterexample :
    (fetchGameResults [[TReply.resp 200
        (some (.arr [.obj [("position", .num 7), ("name", .str "A")]]))]]).1.map
      (fun t => t.position) = [JVal.num 7] ∧
    JVal.num 7 ≠ JVal.num 1 := by
  constructor
  · rfl
  · decide

/-- Claim C9 (amended): positions are 1-based, dense and unique (the n teams
carry exactly 1..n) only when every raw team record lacks a truthy `position`
field, in which case `index + 1` is used; a truthy upstream `position` is
passed through unchanged. -/
theorem c9_amended (xs : List JVal) (ts : List PlayerResult)
    (hmap : xs.enum.mapM (fun p => mapTeam p.1 p.2) = .ok ts)
    (hpos : ∀ x ∈ xs, truthy (optGet x "position") = false) :
    ts.map (fun t => t.position)
      = (List.range' 1 ts.length).map (fun i => JVal.num (Int.ofNat i)) := by
  have henum : xs.enum = List.enumFrom 0 xs := rfl
  rw [henum] at hmap
  have haux := mapM_teams_positions xs 0 ts hmap hpos
  have hlen : ts.length = xs.length := by
    have h2 := congrArg List.length haux
    rw [List.length_map, List.length_map, List.length_range'] at h2
    exact h2
  rw [hlen]
  simpa using haux

/-- Witness for `c9_amended` on two teams without upstream positions. -/
theorem c9_amended_witness :
    ([({ position := JVal.num 1, name := .str "A", score := .num 0,
         correctAnswers := .null, incorrectAnswers := .null, isFinished := .null,
         color := .null, answers := [] } : PlayerResult),
      { position := JVal.num 2, name := .str "B", score := .num 0,
        correctAnswers := .null, incorrectAnswers := .null, isFinished := .null,
        color := .null, answers := [] }].map (fun t => t.position))
      = (List.range' 1 2).map (fun i => JVal.num (Int.ofNat i)) := by
  have h := c9_amended [JVal.obj [("name", .str "A")], JVal.obj [("name", .str "B")]]
    [{ position := JVal.num 1, name := .str "A", score := .num 0,
       correctAnswers := .null, incorrectAnswers := .null, isFinished := .null,
       color := .null, answers := [] },
     { position := JVal.num 2, name := .str "B", score := .num 0,
       correctAnswers := .null, incorrectAnswers := .null, isFinished := .null,
       color := .null, answers := [] }] (by decide) (by decide)
  simpa using h

/-- A content tree of pure `text` wrappers with the given nesting depth. -/
def nestText : Nat → JVal
  | 0 => .str "x"
  | k + 1 => .obj [("text", nestText k)]

theorem truthy_nestText (k : Nat) : truthy (nestText k) = true := by
  cases k <;> rfl

theorem extractFuel_nestText_none : ∀ k, extractFuel k (nestText k) = none := by
  intro k
  induction k with
  | zero => rfl
  | succ k ih =>
    have he : nestText (k + 1) = .obj [("text", nestText k)] := rfl
    rw [he, extractFuel_obj_eq]
    have hg : objGet [("text", nestText k)] "text" = nestText k := rfl
    rw [hg, if_pos (truthy_nestText k), ih]

theorem truthy_jsOr_right (a b : JVal) (hb : truthy b = true) :
    truthy (jsOr a b) = true := by
  unfold jsOr
  by_cases ha : truthy a = true
  · rw [if_pos ha]; exact ha
  · rw [if_neg ha]; exact hb

/-- Claim C6, counterexample: no fixed recursion-depth limit computes the
source's `extract` on all inputs — for any depth bound N, the text-wrapper
chain of depth N is resolved by the unbounded source recursion but not within
N levels.  The recursion of `extract` is therefore not bounded by any fixed
depth limit. -/
theorem c6_counterexample :
    ¬ ∃ N : Nat, ∀ v : JVal, extractFuel N v = some (extract v) := by
  rintro ⟨N, h⟩
  have h1 := h (nestText N)
  rw [extractFuel_nestText_none N] at h1
  exact Option.noConfusion h1

/-- Claim C6 (amended): `extract` (and with it `getTaskTitle`) terminates on
every finite input because its recursion depth is bounded by the size of the
input — not by any input-independent constant — and `getTaskTitle` always
returns a truthy value (at worst the literal `Unknown task`); a cyclic content
tree is not representable as a JSON value. -/
theorem c6_amended (v : JVal) (n : Nat) (h : jsize v ≤ n) :
    extractFuel n v = some (extract v) ∧ truthy (getTaskTitle v) = true := by
  refine ⟨extract_adequate n v h, ?_⟩
  unfold getTaskTitle
  by_cases ht : truthy v = false
  · rw [if_pos ht]; rfl
  · rw [if_neg ht]
    dsimp only
    exact truthy_jsOr_right _ _ (truthy_jsOr_right _ _ (truthy_jsOr_right _ _
      (truthy_jsOr_right _ _ rfl)))

/-- Witness for `c6_amended` at the depth-2 wrapper chain. -/
theorem c6_amended_witness :
    extractFuel (jsize (nestText 2)) (nestText 2) = some (extract (nestText 2)) ∧
    truthy (getTaskTitle (nestText 2)) = true :=
  c6_amended (nestText 2) (jsize (nestText 2)) (le_refl _)

theorem dedupByUrl_mem : ∀ (ps : List GamePhoto) (seen : List JVal) (q : GamePhoto),
    q ∈ dedupByUrl ps seen → truthy q.url = true ∧ q.url ∉ seen := by
  intro ps
  induction ps with
  | nil => intro seen q hq; simp [dedupByUrl] at hq
  | cons p ps ih =>
    intro seen q hq
    rw [dedupByUrl] at hq
    by_cases hc : truthy p.url = false ∨ p.url ∈ seen
    · rw [if_pos hc] at hq
      exact ih seen q hq
    · rw [if_neg hc] at hq
      push_neg at hc
      rcases List.mem_cons.mp hq with hh | hh
      · rw [hh]
        exact ⟨by simpa using hc.1, hc.2⟩
      · have h2 := ih (seen ++ [p.url]) q hh
        exact ⟨h2.1, fun hmem => h2.2 (by simp [hmem])⟩

theorem dedupByUrl_nodup : ∀ (ps : List GamePhoto) (seen : List JVal),
    ((dedupByUrl ps seen).map (fun p => p.url)).Nodup := by
  intro ps
  induction ps with
  | nil => intro seen; simp [dedupByUrl]
  | cons p ps ih =>
    intro seen
    rw [dedupByUrl]
    by_cases hc : truthy p.url = false ∨ p.url ∈ seen
    · rw [if_pos hc]
      exact ih seen
    · rw [if_neg hc]
      simp only [List.map_cons, List.nodup_cons]
      constructor
      · intro hmem
        obtain ⟨q, hq, hqu⟩ := List.mem_map.mp hmem
        have h2 := dedupByUrl_mem ps (seen ++ [p.url]) q hq
        exact h2.2 (by simp [hqu])
      · exact ih (seen ++ [p.url])

theorem dedupByUrl_covers : ∀ (ps : List GamePhoto) (seen : List JVal) (p0 : GamePhoto),
    p0 ∈ ps → truthy p0.url = true → p0.url ∉ seen →
    p0.url ∈ (dedupByUrl ps seen).map (fun q => q.url) := by
  intro ps
  induction ps with
  | nil => intro seen p0 hmem; simp at hmem
  | cons p ps ih =>
    intro seen p0 hmem htr hnot
    rw [dedupByUrl]
    by_cases hc : truthy p.url = false ∨ p.url ∈ seen
    · rw [if_pos hc]
      rcases List.mem_cons.mp hmem with hh | hh
      · exfalso
        rcases hc with hc | hc
        · rw [hh] at htr; rw [htr] at hc; simp at hc
        · rw [hh] at hnot; exact hnot hc
      · exact ih seen p0 hh htr hnot
    · rw [if_neg hc]
      rcases List.mem_cons.mp hmem with hh | hh
      · rw [hh]
        simp
      · by_cases hu : p0.url = p.url
        · rw [hu]
          simp
        · have h2 : p0.url ∉ seen ++ [p.url] := by
            intro hx
            rcases List.mem_append.mp hx with hx | hx
            · exact hnot hx
            · simp at hx; exact hu hx
          have h3 := ih (seen ++ [p.url]) p0 hh htr h2
          simp only [List.map_cons, List.mem_cons]
          exact Or.inr h3

theorem dedupByUrl_first_wins : ∀ (ps : List GamePhoto) (seen : List JVal) (q : GamePhoto),
    q ∈ dedupByUrl ps seen →
    ps.find? (fun p => decide (p.url = q.url)) = some q := by
  intro ps
  induction ps with
  | nil => intro seen q hq; simp [dedupByUrl] at hq
  | cons p ps ih =>
    intro seen q hq
    rw [dedupByUrl] at hq
    by_cases hc : truthy p.url = false ∨ p.url ∈ seen
    · rw [if_pos hc] at hq
      have h1 := dedupByUrl_mem ps seen q hq
      have hne : p.url ≠ q.url := by
        intro he
        rcases hc with hc | hc
        · rw [he] at hc; rw [h1.1] at hc; simp at hc
        · rw [he] at hc; exact h1.2 hc
      rw [List.find?_cons]
      have hd : decide (p.url = q.url) = false := by simp [hne]
      simp only [hd]
      exact ih seen q hq
    · rw [if_neg hc] at hq
      rcases List.mem_cons.mp hq with hh | hh
      · rw [List.find?_cons]
        have hd : decide (p.url = q.url) = true := by rw [hh]; simp
        simp only [hd]
        rw [hh]
      · have h1 := dedupByUrl_mem ps (seen ++ [p.url]) q hh
        have hne : p.url ≠ q.url := by
          intro he
          exact h1.2 (by simp [he.symm])
        rw [List.find?_cons]
        have hd : decide (p.url = q.url) = false := by simp [hne]
        simp only [hd]
        exact ih (seen ++ [p.url]) q hh

theorem mkPhoto_ok (rnd : Nat → String) (i : Nat) (p : JVal) (h : p ≠ .null) :
    ∃ q, mkPhoto rnd i p = .ok q := by
  cases p with
  | null => exact absurd rfl h
  | bool b => exact ⟨_, rfl⟩
  | num n => exact ⟨_, rfl⟩
  | str s => exact ⟨_, rfl⟩
  | arr xs => exact ⟨_, rfl⟩
  | obj fs => exact ⟨_, rfl⟩

theorem enumFrom_mapM_photos (rnd : Nat → String) :
    ∀ (ps : List JVal) (k : Nat), (∀ p ∈ ps, p ≠ .null) →
    ∃ mapped, (List.enumFrom k ps).mapM (fun q => mkPhoto rnd q.1 q.2) = .ok mapped ∧
      mapped.length = ps.length := by
  intro ps
  induction ps with
  | nil =>
    intro k _
    exact ⟨[], rfl, rfl⟩
  | cons p ps ih =>
    intro k hall
    obtain ⟨q, hq⟩ := mkPhoto_ok rnd k p (hall p (by simp))
    obtain ⟨mapped, hm, hlen⟩ := ih (k + 1) (fun z hz => hall z (by simp [hz]))
    refine ⟨q :: mapped, ?_, by simp [hlen]⟩
    simp only [List.enumFrom]
    rw [mapM_except_cons_gen, hq, hm]

theorem finalizePhotos_eq (rnd : Nat → String) (ps : List JVal) :
    finalizePhotos rnd ps =
      (match ps.enum.mapM (fun q => mkPhoto rnd q.1 q.2) with
       | .error e => .error e
       | .ok mapped => .ok (dedupByUrl mapped [])) := by
  unfold finalizePhotos
  cases ps.enum.mapM (fun q => mkPhoto rnd q.1 q.2) <;> rfl

/-- Claim C8, counterexample: a literal `null` record in the accumulated photo
list (a shape a dedicated media endpoint may legitimately return inside its
`data` array) is a candidate record without a resolvable url, yet it is not
silently discarded — `p.url` throws a TypeError in the final mapping, which is
outside every try/catch, so the whole photo fetch fails. -/
theorem c8_counterexample :
    finalizePhotos (fun _ => "0.123") [JVal.null] = .error () := rfl

/-- Claim C8 (amended): over any accumulated candidate list free of literal
`null` records, the photo pipeline never fails, every returned photo has a
truthy url, no two returned photos share a url, every candidate that resolves
a truthy url is represented, the representative for each url is the first
mapped candidate carrying it, and candidates without a resolvable url are
silently dropped (they appear in no returned photo). -/
theorem c8_amended (rnd : Nat → String) (photos : List JVal)
    (hnn : ∀ p ∈ photos, p ≠ JVal.null) :
    ∃ mapped out,
      photos.enum.mapM (fun q => mkPhoto rnd q.1 q.2) = .ok mapped ∧
      finalizePhotos rnd photos = .ok out ∧
      (∀ q ∈ out, truthy q.url = true) ∧
      (out.map (fun q => q.url)).Nodup ∧
      (∀ p ∈ mapped, truthy p.url = true → p.url ∈ out.map (fun q => q.url)) ∧
      (∀ q ∈ out, mapped.find? (fun p => decide (p.url = q.url)) = some q) := by
  have henum : photos.enum = List.enumFrom 0 photos := rfl
  obtain ⟨mapped, hm, _hlen⟩ := enumFrom_mapM_photos rnd photos 0 hnn
  rw [← henum] at hm
  refine ⟨mapped, dedupByUrl mapped [], hm, ?_, ?_, ?_, ?_, ?_⟩
  · rw [finalizePhotos_eq, hm]
  · intro q hq
    exact (dedupByUrl_mem mapped [] q hq).1
  · exact dedupByUrl_nodup mapped []
  · intro p hp htr
    exact dedupByUrl_covers mapped [] p hp htr (by simp)
  · intro q hq
    exact dedupByUrl_first_wins mapped [] q hq

/-- Witness for `c8_amended`: two records surfacing the same url and one
record with no url — one photo comes back, carrying that url. -/
theorem c8_amended_witness :
    ∃ out, finalizePhotos (fun _ => "0.123")
        [JVal.obj [("url", .str "https://x/1.jpg")],
         JVal.obj [("mediaUrl", .str "https://x/1.jpg")],
         JVal.obj [("note", .str "no url")]] = .ok out ∧
      (out.map (fun q => q.url)).Nodup ∧
      (∀ q ∈ out, truthy q.url = true) := by
  obtain ⟨mapped, out, _h1, h2, h3, h4, _h5, _h6⟩ :=
    c8_amended (fun _ => "0.123")
      [JVal.obj [("url", .str "https://x/1.jpg")],
       JVal.obj [("mediaUrl", .str "https://x/1.jpg")],
       JVal.obj [("note", .str "no url")]] (by decide)
  exact ⟨out, h2, h4, h3⟩

/-- The ids of an id stream not yet known, in first-seen order (recursive
formulation used to reason about the reconciliation fold). -/
def newIds (known : List JVal) : List JVal → List JVal
  | [] => []
  | tid :: rest =>
    if tid ∈ known then newIds known rest
    else tid :: newIds (known ++ [tid]) rest

theorem reconcile_fold_eq : ∀ (stream : List JVal) (known : List JVal) (out : List GameTask),
    stream.foldl addSyntheticId (known, out)
      = (known ++ newIds known stream,
         out ++ (newIds known stream).map
           (fun tid => { id := tid, title := tid, type := .str "synthetic" })) := by
  intro stream
  induction stream with
  | nil => intro known out; simp [newIds]
  | cons tid rest ih =>
    intro known out
    rw [List.foldl_cons]
    by_cases hmem : tid ∈ known
    · have ha : addSyntheticId (known, out) tid = (known, out) := by
        simp [addSyntheticId, hmem]
      rw [ha, newIds, if_pos hmem]
      exact ih known out
    · have ha : addSyntheticId (known, out) tid
          = (known ++ [tid], out ++ [{ id := tid, title := tid, type := .str "synthetic" }]) := by
        simp [addSyntheticId, hmem]
      rw [ha, newIds, if_neg hmem]
      rw [ih]
      simp

theorem newIds_mem : ∀ (stream : List JVal) (known : List JVal) (tid : JVal),
    tid ∈ stream → tid ∈ known ++ newIds known stream := by
  intro stream
  induction stream with
  | nil => intro known tid h; simp at h
  | cons t rest ih =>
    intro known tid h
    rcases List.mem_cons.mp h with hh | hh
    · subst hh
      rw [newIds]
      by_cases hm : tid ∈ known
      · rw [if_pos hm]; exact List.mem_append.mpr (Or.inl hm)
      · rw [if_neg hm]; simp
    · rw [newIds]
      by_cases hm : t ∈ known
      · rw [if_pos hm]; exact ih known tid hh
      · rw [if_neg hm]
        have h2 := ih (known ++ [t]) tid hh
        have h3 : known ++ t :: newIds (known ++ [t]) rest
            = (known ++ [t]) ++ newIds (known ++ [t]) rest := by simp
        rw [h3]
        exact h2

theorem newIds_nodup : ∀ (stream : List JVal) (known : List JVal),
    known.Nodup → (known ++ newIds known stream).Nodup := by
  intro stream
  induction stream with
  | nil => intro known h; simpa [newIds] using h
  | cons t rest ih =>
    intro known h
    rw [newIds]
    by_cases hm : t ∈ known
    · rw [if_pos hm]; exact ih known h
    · rw [if_neg hm]
      have h3 : known ++ t :: newIds (known ++ [t]) rest
          = (known ++ [t]) ++ newIds (known ++ [t]) rest := by simp
      rw [h3]
      refine ih (known ++ [t]) ?_
      simp [List.nodup_append, h, hm]

theorem firstSeenNew_aux : ∀ (stream : List JVal) (known acc : List JVal),
    stream.foldl (fun a tid => if tid ∈ known ∨ tid ∈ a then a else a ++ [tid]) acc
      = acc ++ newIds (known ++ acc) stream := by
  intro stream
  induction stream with
  | nil => intro known acc; simp [newIds]
  | cons t rest ih =>
    intro known acc
    rw [List.foldl_cons]
    by_cases hm : t ∈ known ∨ t ∈ acc
    · rw [if_pos hm]
      rw [ih known acc, newIds, if_pos (List.mem_append.mpr hm)]
    · rw [if_neg hm]
      rw [ih known (acc ++ [t])]
      rw [newIds, if_neg (by
        intro hx
        exact hm (List.mem_append.mp hx))]
      simp

theorem firstSeenNew_eq_newIds (known : List JVal) (stream : List JVal) :
    firstSeenNew known stream = newIds known stream := by
  unfold firstSeenNew
  have h := firstSeenNew_aux stream known []
  simpa using h

theorem reconcile_double_fold (A : List PlayerResult) :
    ∀ st : List JVal × List GameTask,
    A.foldl (fun acc team => team.answers.foldl
      (fun a2 ans => addSyntheticId a2 ans.taskId) acc) st
      = (answerIdStream A).foldl addSyntheticId st := by
  induction A with
  | nil => intro st; simp [answerIdStream]
  | cons team rest ih =>
    intro st
    rw [List.foldl_cons]
    have hinner : team.answers.foldl (fun a2 ans => addSyntheticId a2 ans.taskId) st
        = (team.answers.map (fun a => a.taskId)).foldl addSyntheticId st := by
      rw [List.foldl_map]
    rw [hinner, ih]
    have hstream : answerIdStream (team :: rest)
        = team.answers.map (fun a => a.taskId) ++ answerIdStream rest := by
      simp [answerIdStream]
    rw [hstream, List.foldl_append]

theorem map_synth_ids (l : List JVal) :
    l.map ((fun (t : GameTask) => t.id) ∘
      (fun tid => ({ id := tid, title := tid, type := JVal.str "synthetic" } : GameTask))) = l := by
  induction l with
  | nil => rfl
  | cons a l ih =>
    simp only [List.map_cons, ih]
    rfl

/-- Claim C4: over an authoritative catalog with unique ids, the reconciled
catalog's ids are duplicate-free, cover every task id referenced by any
answer, and the output is the authoritative entries in their original order
followed by synthetic entries `{id, title: id, type: 'synthetic'}` for the
unknown ids in the order they are first encountered while walking the
answers. -/
theorem c4_reconcile (T : List GameTask) (A : List PlayerResult)
    (hnodup : (T.map (fun t => t.id)).Nodup) :
    ((reconcileTasks T A).map (fun t => t.id)).Nodup ∧
    (∀ team ∈ A, ∀ ans ∈ team.answers,
      ans.taskId ∈ (reconcileTasks T A).map (fun t => t.id)) ∧
    ∃ synth, reconcileTasks T A = T ++ synth ∧
      synth.map (fun t => t.id) = firstSeenNew (T.map (fun t => t.id)) (answerIdStream A) ∧
      ∀ t ∈ synth, t.type = .str "synthetic" ∧ t.title = t.id := by
  by_cases hA : A.length > 0
  · have hrec : reconcileTasks T A
        = T ++ (newIds (T.map (fun t => t.id)) (answerIdStream A)).map
            (fun tid => { id := tid, title := tid, type := .str "synthetic" }) := by
      unfold reconcileTasks
      rw [if_pos hA]
      dsimp only
      rw [reconcile_double_fold, reconcile_fold_eq]
      simp
    have hids : (reconcileTasks T A).map (fun t => t.id)
        = T.map (fun t => t.id) ++ newIds (T.map (fun t => t.id)) (answerIdStream A) := by
      rw [hrec, List.map_append, List.map_map, map_synth_ids]
    refine ⟨?_, ?_, ?_⟩
    · rw [hids]
      exact newIds_nodup (answerIdStream A) (T.map (fun t => t.id)) hnodup
    · intro team hteam ans hans
      rw [hids]
      apply newIds_mem
      simp only [answerIdStream, List.mem_flatten]
      exact ⟨team.answers.map (fun a => a.taskId),
        List.mem_map.mpr ⟨team, hteam, rfl⟩,
        List.mem_map.mpr ⟨ans, hans, rfl⟩⟩
    · refine ⟨(newIds (T.map (fun t => t.id)) (answerIdStream A)).map
        (fun tid => { id := tid, title := tid, type := .str "synthetic" }), hrec, ?_, ?_⟩
      · rw [firstSeenNew_eq_newIds, List.map_map, map_synth_ids]
      · intro t ht
        obtain ⟨tid, _htid, hfn⟩ := List.mem_map.mp ht
        rw [← hfn]
        exact ⟨rfl, rfl⟩
  · have hA0 : A = [] := by
      cases A with
      | nil => rfl
      | cons a as => simp at hA
    subst hA0
    have hrec : reconcileTasks T [] = T := by simp [reconcileTasks]
    rw [hrec]
    refine ⟨hnodup, by simp, [], by simp, ?_, by simp⟩
    simp [firstSeenNew, answerIdStream]

/-- Witness for `c4_reconcile`: one authoritative task `t1`, answers
referencing `q1`, `t1` and `q1` again — the catalog gains exactly one
synthetic entry for `q1`, after `t1`. -/
theorem c4_reconcile_witness :
    ((reconcileTasks
        [{ id := .str "t1", title := .str "T one", type := .str "task" }]
        [{ position := .num 1, name := .str "A", score := .num 0,
           correctAnswers := .null, incorrectAnswers := .null, isFinished := .null,
           color := .null,
           answers := [
             { taskId := .str "q1", isCorrect := .null, score := .num 0, raw := .null },
             { taskId := .str "t1", isCorrect := .null, score := .num 0, raw := .null },
             { taskId := .str "q1", isCorrect := .null, score := .num 0, raw := .null }] }]).map
      (fun t => t.id)).Nodup :=
  (c4_reconcile
    [{ id := .str "t1", title := .str "T one", type := .str "task" }]
    [{ position := .num 1, name := .str "A", score := .num 0,
       correctAnswers := .null, incorrectAnswers := .null, isFinished := .null,
       color := .null,
       answers := [
         { taskId := .str "q1", isCorrect := .null, score := .num 0, raw := .null },
         { taskId := .str "t1", isCorrect := .null, score := .num 0, raw := .null },
         { taskId := .str "q1", isCorrect := .null, score := .num 0, raw := .null }] }]
    (by decide)).1
